import Mathlib

/-!
Verification of the configuration-resolution engine of pykern
(src/pykern/pkconfig.py) against its natural-language specification.

The embedding below is a shallow model of the source, function by
function.  Python strings are Lean String, Python dicts are association
lists that keep insertion order (as CPython dicts do), Python exceptions
are an explicit error type, and the two places where Python recursion or
a while loop may run unboundedly (the nested flatten and the
interpolation loop of scalar resolution) take an explicit fuel argument
so that every definition is structurally recursive and kernel-computable.
-/

/-- Python exceptions raised by the engine.  Every `assert cond, msg` in the
source raises `assertionError msg`; `str.format` raises `keyError` for an
unknown placeholder; evaluating an undefined Python name raises `nameError`;
malformed format strings raise `valueError`. -/
inductive PyErr where
  | assertionError (msg : String)
  | keyError (key : String)
  | nameError (name : String)
  | valueError (msg : String)
deriving DecidableEq, Repr

/-- A configuration value as it appears in the raw or parsed value space.
Leaves of the nested source mappings.  `verbatim` models the `Verbatim`
subclass of `str` (a string wrapper exempt from interpolation); `none`
models Python `None`; `other` models any further Python object by its
printed form. -/
inductive Value where
  | str (s : String)
  | verbatim (s : String)
  | none
  | list (elts : List Value)
  | other (repr : String)

/-- A nested configuration mapping as returned by a channel function:
entries keep insertion order, values are either leaves or nested dicts. -/
inductive Nested where
  | leaf (v : Value)
  | node (entries : List (String × Nested))

/-- Python truthiness of a value, used by `if decl.default` and
`if not value` tests in the source.  An `other` object is modelled as
truthy. -/
def truthyV : Value → Bool
  | Value.none => false
  | .str s => !s.data.isEmpty
  | .verbatim s => !s.data.isEmpty
  | .list l => !l.isEmpty
  | .other _ => true

/-- Is the value a Python `list` (`isinstance(v, list)`). -/
def Value.isList : Value → Bool
  | .list _ => true
  | _ => false

/-- Is the value Python `None` (`v is None`). -/
def Value.isNone : Value → Bool
  | Value.none => true
  | _ => false

/-- One-level `repr` of a value, used only inside the rendering of list
values in error messages (Python shows list elements with `repr`).  A
nested list inside a list is abbreviated; no claim exercises that case. -/
def pyReprElem : Value → String
  | .str s => "\x27" ++ s ++ "\x27"
  | .verbatim s => "\x27" ++ s ++ "\x27"
  | Value.none => "None"
  | .list _ => "[...]"
  | .other r => r

/-- Join a list of strings with a separator, as `sep.join(l)`. -/
def joinSep (sep : String) : List String → String
  | [] => ""
  | [x] => x
  | x :: xs => x ++ sep ++ joinSep sep xs

/-- Python `str(v)`: identity on strings (including the `Verbatim`
subclass), `"None"` for `None`, bracketed comma-joined `repr`s for lists. -/
def pyStr : Value → String
  | .str s => s
  | .verbatim s => s
  | Value.none => "None"
  | .list l => "[" ++ joinSep ", " (l.map pyReprElem) ++ "]"
  | .other r => r

/-- ASCII uppercase of one character, modelling `str.upper` on the ASCII
keys the engine uses. -/
def upChar (c : Char) : Char :=
  if 'a' ≤ c ∧ c ≤ 'z' then Char.ofNat (c.toNat - 32) else c

/-- ASCII uppercase of a string. -/
def upStr (s : String) : String := String.mk (s.data.map upChar)

/-- Helper for `splitOnChar`: accumulate characters until the separator. -/
def splitGo (sep : Char) : List Char → List Char → List String
  | [], acc => [String.mk acc.reverse]
  | c :: cs, acc =>
    if c = sep then String.mk acc.reverse :: splitGo sep cs []
    else splitGo sep cs (c :: acc)

/-- Python `s.split(sep)` for a one-character separator. -/
def splitOnChar (sep : Char) (s : String) : List String :=
  splitGo sep s.data []

/-- Internal representation of a key for a value, modelling the `_Key`
class: the flat form is the parts joined with an underscore and
uppercased (the identity used for equality and dict membership), and
`msg` is the parts joined with dots (used in error messages). -/
structure Key where
  parts : List String
deriving DecidableEq, Repr

/-- The flat uppercase underscore-joined form of a key (the `str` value of
a `_Key`). -/
def Key.flat (k : Key) : String := upStr (joinSep "_" k.parts)

/-- The dotted human-readable form of a key (`_Key.msg`). -/
def Key.msg (k : Key) : String := joinSep "." k.parts

/-- A flat mapping from keys to values: the Raw Value Space and the Parsed
Value Space.  Association list in insertion order; membership and lookup
compare the flat string form, as Python dict keyed by `_Key` (a `str`
subclass) does. -/
abbrev FlatMap := List (Key × Value)

/-- Dict lookup by the flat string form of the key. -/
def lookupFlat : FlatMap → Key → Option Value
  | [], _ => Option.none
  | e :: es, k => if e.fst.flat = k.flat then some e.snd else lookupFlat es k

/-- Dict assignment by the flat string form: replaces in place if present
(keeping the original key object and position, as CPython does), else
appends. -/
def insertFlat : FlatMap → Key → Value → FlatMap
  | [], k, v => [(k, v)]
  | e :: es, k, v =>
    if e.fst.flat = k.flat then (e.fst, v) :: es else e :: insertFlat es k v

/-- An alphabetic ASCII character (the KEY_RE classes are applied with
re.IGNORECASE). -/
def isAlphaCh (c : Char) : Bool :=
  ('a' ≤ c && c ≤ 'z') || ('A' ≤ c && c ≤ 'Z')

/-- An alphanumeric ASCII character. -/
def isAlnumCh (c : Char) : Bool :=
  isAlphaCh c || ('0' ≤ c && c ≤ '9')

/-- Match the middle-and-last portion of KEY_RE: zero or more
letter, digit or underscore characters followed by one letter or digit. -/
def matchMid : List Char → Bool
  | [] => false
  | [c] => isAlnumCh c
  | c :: rest => (isAlnumCh c || c == '_') && matchMid rest

/-- KEY_RE as a whole-string match: a letter, then letters, digits or
underscores, ending in a letter or digit (at least two characters),
case-insensitively.  Models
the compiled KEY_RE pattern with the IGNORECASE flag. -/
def keyMatches (s : String) : Bool :=
  match s.data with
  | [] => false
  | [_] => false
  | c :: rest => isAlphaCh c && matchMid rest

/-- Membership of a string in a list of strings (Python `in` over the
`seen` dict of the interpolation loop). -/
def seenHas : List String → String → Bool
  | [], _ => false
  | t :: ts, s => if t = s then true else seenHas ts s

/-- How a declared parser is dispatched by `_resolver`: the source
compares the parser against the builtin `list` and `dict` types and
otherwise treats it as a scalar converter.  The `dict` branch
(`_resolve_dict`) is exercised by none of the claims and is not
embedded. -/
inductive ParserKind where
  | listType
  | scalar
deriving DecidableEq, Repr

/-- A declared parser: its dispatch kind, whether it carries the
`pykern_pkconfig_parse_none` attribute, and its conversion function. -/
structure Parser where
  kind : ParserKind
  parseNone : Bool
  run : Value → Except PyErr Value

/-- The `parse_none` decorator: marks a parser as able to parse `None`. -/
def parse_none (p : Parser) : Parser := { p with parseNone := true }

/-- The builtin `str` used as a parser: `str(v)`. -/
def strParser : Parser := ⟨.scalar, false, fun v => .ok (.str (pyStr v))⟩

/-- The builtin `list` used as a parser.  Its conversion function is never
invoked: `_resolve_list` returns without calling the parser. -/
def listParser : Parser := ⟨.listType, false, fun v => .ok v⟩

/-- A single parameter declaration (`_Declaration` built from a
`(default, parser, docstring)` tuple).  Group declarations (nested dicts)
are exercised by none of the claims and are not embedded. -/
structure Decl where
  default : Value
  parser : Parser
  docstring : String
  required : Bool

/-- An ordinary declaration from a 3-tuple: not required. -/
def mkDecl (default : Value) (p : Parser) (doc : String) : Decl :=
  ⟨default, p, doc, false⟩

/-- A `Required(parser, docstring)` declaration: the default is forced to
`None` and the required flag is set. -/
def Required (p : Parser) (doc : String) : Decl :=
  ⟨Value.none, p, doc, true⟩

/-- Lookup of a format placeholder name in the parsed value space:
`str.format` keyword lookup against the flat string form of the keys. -/
def lookupName (pvs : FlatMap) (name : String) : Option Value :=
  match pvs with
  | [] => Option.none
  | e :: es => if e.fst.flat = name then some e.snd else lookupName es name

/-- Splicing a looked-up value into a format result: format of v at the empty spec,
which is `str(v)` for ordinary values but raises `AssertionError` for a
`Verbatim` value (its `__format__` method refuses). -/
def spliceValue : Value → Except PyErr (List Char)
  | .verbatim s =>
    .error (.assertionError (s ++ ": you cannot refer to this formatted value"))
  | v => .ok (pyStr v).data

/-- Scanner mode for the format-string walk: literal text, or inside a
placeholder collecting its name (characters in reverse order). -/
inductive FmtMode where
  | lit
  | name (acc : List Char)

/-- One pass of `s.format(**pvs)` over the characters of `s`: literal
characters are copied, doubled braces are unescaped, a placeholder is
replaced by the spliced looked-up value, an unknown placeholder raises
`KeyError`, and a stray or unterminated brace raises `ValueError`. -/
def fmtGo (pvs : FlatMap) : FmtMode → List Char → Except PyErr (List Char)
  | .lit, [] => .ok []
  | .lit, '{' :: '{' :: rest =>
    match fmtGo pvs .lit rest with
    | .ok t => .ok ('{' :: t)
    | .error e => .error e
  | .lit, '{' :: rest => fmtGo pvs (.name []) rest
  | .lit, '}' :: '}' :: rest =>
    match fmtGo pvs .lit rest with
    | .ok t => .ok ('}' :: t)
    | .error e => .error e
  | .lit, '}' :: _ => .error (.valueError "Single brace encountered in format string")
  | .lit, c :: rest =>
    match fmtGo pvs .lit rest with
    | .ok t => .ok (c :: t)
    | .error e => .error e
  | .name _, [] => .error (.valueError "Single brace encountered in format string")
  | .name acc, '}' :: rest =>
    (match lookupName pvs (String.mk acc.reverse) with
     | some v =>
       match spliceValue v with
       | .ok sv =>
         match fmtGo pvs .lit rest with
         | .ok t => .ok (sv ++ t)
         | .error e => .error e
       | .error e => .error e
     | Option.none => .error (.keyError (String.mk acc.reverse)))
  | .name acc, c :: rest => fmtGo pvs (.name (c :: acc)) rest

/-- One `res.format(**_parsed_values)` call on a string value. -/
def fmt (pvs : FlatMap) (s : String) : Except PyErr String :=
  match fmtGo pvs .lit s.data with
  | .ok cs => .ok (String.mk cs)
  | .error e => .error e

/-- Result of the interpolation while-loop of `_resolve_value`: the loop
finished with a value, raised, or has not finished within the given
fuel. -/
inductive LoopRes where
  | done (v : Value)
  | failed (e : PyErr)
  | more

/-- The loop guard of `_resolve_value`: continue while the value is a
plain string (not `Verbatim`) that has not been seen yet. -/
def contin (seen : List String) : Value → Bool
  | .str s => !seenHas seen s
  | _ => false

/-- The interpolation while-loop of `_resolve_value`: repeatedly format
the current string against the parsed value space, recording each
intermediate string, until the value is no longer a fresh plain string.
`fuel` bounds the number of iterations; `more` reports that the loop was
still running when the fuel ran out. -/
def interpLoop (pvs : FlatMap) : Nat → List String → Value → LoopRes
  | 0, seen, res => if contin seen res then .more else .done res
  | n + 1, seen, res =>
    match res with
    | .str s =>
      if seenHas seen s then .done res
      else
        match fmt pvs s with
        | .ok s2 => interpLoop pvs n (s :: seen) (.str s2)
        | .error e => .failed e
    | _ => .done res

/-- Result of resolving one declaration: value, exception, or fuel ran
out inside the interpolation loop. -/
inductive RRes where
  | ok (v : Value)
  | err (e : PyErr)
  | spin

/-- Lift an exception-or-value result into `RRes`. -/
def exceptToR : Except PyErr Value → RRes
  | .ok v => .ok v
  | .error e => .err e

/-- Tail of `_resolve_value` after the initial raw-or-default choice: run
the interpolation loop, then short-circuit a `None` result when the
parser does not carry the parse-none marker, else invoke the parser. -/
def resolveValueLoop (fuel : Nat) (pvs : FlatMap) (d : Decl) (res0 : Value) : RRes :=
  match interpLoop pvs fuel [] res0 with
  | .more => .spin
  | .failed e => .err e
  | .done r =>
    if r.isNone && !d.parser.parseNone then .ok Value.none
    else exceptToR (d.parser.run r)

/-- The scalar resolver `_resolve_value(key, decl)`: take the raw value if
present, else fail for a required declaration (with the dotted key in the
message), else take the default; then interpolate and parse. -/
def resolveValue (fuel : Nat) (raw pvs : FlatMap) (key : Key) (d : Decl) : RRes :=
  match lookupFlat raw key with
  | some v => resolveValueLoop fuel pvs d v
  | Option.none =>
    if d.required then
      .err (.assertionError (key.msg ++ ": config value missing and is required"))
    else resolveValueLoop fuel pvs d d.default

/-- The list resolver `_resolve_list(key, decl)`.  The required-and-missing
assert in the source formats its message with the name `k`, which is not in
scope, so evaluating that message raises `NameError` instead of the
intended `AssertionError`; the model reproduces that as
`nameError "k"`. -/
def resolveList (raw : FlatMap) (key : Key) (d : Decl) : Except PyErr Value :=
  match (if truthyV d.default then d.default else Value.list []) with
  | .list resL =>
    (match lookupFlat raw key with
     | Option.none =>
       if d.required then .error (.nameError "k")
       else .ok (.list resL)
     | some rv =>
       match rv with
       | .list rl => .ok (.list (rl ++ resL))
       | Value.none => .ok Value.none
       | _ =>
         .error (.assertionError
           (key.msg ++ ": value (" ++ pyStr rv ++ ") must be a list or None")))
  | _ =>
    .error (.assertionError
      (key.msg ++ ": default (" ++ pyStr d.default ++ ") must be a list"))

/-- The `_resolver` dispatch restricted to the claims: `list == parser`
selects `_resolve_list`, anything else scalar resolution. -/
def dispatch (fuel : Nat) (raw pvs : FlatMap) (key : Key) (d : Decl) : RRes :=
  match d.parser.kind with
  | .listType => exceptToR (resolveList raw key d)
  | .scalar => resolveValue fuel raw pvs key d

/-- Strict code-point comparison of character lists (Python string
comparison). -/
def charsLt : List Char → List Char → Bool
  | [], [] => false
  | [], _ :: _ => true
  | _ :: _, [] => false
  | a :: as, b :: bs => if a < b then true else if b < a then false else charsLt as bs

/-- Python string less-than. -/
def strLt (a b : String) : Bool := charsLt a.data b.data

/-- Insert one keyed entry into a list sorted by the flat key form. -/
def insertSorted {α : Type} (e : Key × α) : List (Key × α) → List (Key × α)
  | [] => [e]
  | x :: xs =>
    if strLt x.fst.flat e.fst.flat then x :: insertSorted e xs else e :: x :: xs

/-- Sort keyed entries by the flat key form, modelling
`sorted(d.keys())` iteration over a dict. -/
def sortByFlat {α : Type} (l : List (Key × α)) : List (Key × α) :=
  l.foldr insertSorted []

/-- The loop body of `_iter_decls`: resolve each declaration in sorted
key order, recording every resolved leaf in the parsed value space and in
the (here flat) result mapping.  The nested packing of the same values
into an OrderedMapping, and group placeholders, are not embedded. -/
def iterGo (fuel : Nat) (raw : FlatMap) :
    List (Key × Decl) → FlatMap → FlatMap → RRes × FlatMap × FlatMap
  | [], pvs, res => (.ok Value.none, pvs, res)
  | (k, d) :: rest, pvs, res =>
    match dispatch fuel raw pvs k d with
    | .ok v => iterGo fuel raw rest (insertFlat pvs k v) (insertFlat res k v)
    | .err e => (.err e, pvs, res)
    | .spin => (.spin, pvs, res)

/-- Outcome of `_iter_decls` over a module declaration set. -/
inductive IterRes where
  | done (res : FlatMap) (pvs : FlatMap)
  | failed (e : PyErr)
  | spin

/-- `_iter_decls(decls, res)`: visit declarations in sorted flat-key
order, resolving each against the raw and parsed value spaces. -/
def iterDecls (fuel : Nat) (raw pvs : FlatMap) (decls : List (Key × Decl)) : IterRes :=
  match iterGo fuel raw (sortByFlat decls) pvs [] with
  | (.ok _, pvs2, res) => .done res pvs2
  | (.err e, _, _) => .failed e
  | (.spin, _, _) => .spin

/-- `_flatten_keys(key_parts, values, res)`: turn a nested mapping into a
flat dict keyed by `_Key`s, validating each key against KEY_RE and
failing on a key whose flat form is already present.  Only leaves are
stored.  `fuel` bounds the recursion (standing in for the Python
recursion limit); it strictly decreases on every step. -/
def flattenKeys : Nat → List String → List (String × Nested) → FlatMap →
    Except PyErr FlatMap
  | _, _, [], res => .ok res
  | 0, _, _ :: _, _ => .error (.valueError "maximum recursion depth exceeded")
  | fuel + 1, keyParts, (k, v) :: rest, res =>
    let key : Key := ⟨keyParts ++ splitOnChar '.' k⟩
    if keyMatches key.flat then
      if (res.any fun e => e.fst.flat = key.flat) then
        .error (.assertionError (key.msg ++ ": duplicate key"))
      else
        match v with
        | .node entries =>
          match flattenKeys fuel key.parts entries res with
          | .ok res2 => flattenKeys fuel keyParts rest res2
          | .error e => .error e
        | .leaf lv => flattenKeys fuel keyParts rest (res ++ [(key, lv)])
    else
      .error (.assertionError
        (key.msg ++ ": invalid key must match ^[a-z][a-z0-9_]*[a-z0-9]$ (ignorecase)"))

/-- The merge of one incoming value onto an existing value at the same
key, from the loop body of `_values_flatten`: if either side is a list,
pass the incoming value through when either side is `None`, concatenate
incoming-first when both are lists, and otherwise raise a type-mismatch
assertion; if neither side is a list the incoming value overwrites. -/
def mergeOne (k : Key) (b n : Value) : Except PyErr Value :=
  if b.isList || n.isList then
    if b.isNone || n.isNone then .ok n
    else
      match b, n with
      | .list bl, .list nl => .ok (.list (nl ++ bl))
      | _, _ =>
        .error (.assertionError
          (k.msg ++ ": type mismatch between new value (" ++ pyStr n
            ++ ") and base (" ++ pyStr b ++ ")"))
  else .ok n

/-- The merge loop of `_values_flatten`: fold the flattened incoming
entries, in sorted key order, onto the accumulated base. -/
def mergeEntries (base : FlatMap) : List (Key × Value) → Except PyErr FlatMap
  | [] => .ok base
  | (k, n) :: rest =>
    match lookupFlat base k with
    | some b =>
      match mergeOne k b n with
      | .ok m => mergeEntries (insertFlat base k m) rest
      | .error e => .error e
    | Option.none => mergeEntries (insertFlat base k n) rest

/-- `_values_flatten(base, new)`: flatten the incoming nested mapping into
its own fresh dict, then merge it key by key (sorted) into the base. -/
def valuesFlatten (fuel : Nat) (base : FlatMap) (new : List (String × Nested)) :
    Except PyErr FlatMap :=
  match flattenKeys fuel [] new [] with
  | .ok nv => mergeEntries base (sortByFlat nv)
  | .error e => .error e

/-- The source-merging loop of `_coalesce_values`: each configuration
source (one nested mapping per package base module, home file, and the
cleaned environment) is flattened and merged in turn into the single
accumulating raw value space.  File loading itself is outside the model;
the sources are given as already-obtained nested mappings. -/
def coalesceSources (fuel : Nat) : FlatMap → List (List (String × Nested)) →
    Except PyErr FlatMap
  | acc, [] => .ok acc
  | acc, s :: rest =>
    match valuesFlatten fuel acc s with
    | .ok acc2 => coalesceSources fuel acc2 rest
    | .error e => .error e

/-- Dict assignment for nested-valued string-keyed dicts (used by the
cleaned-environment dict). -/
def insertNested : List (String × Nested) → String → Nested → List (String × Nested)
  | [], k, v => [(k, v)]
  | e :: es, k, v =>
    if e.fst = k then (e.fst, v) :: es else e :: insertNested es k v

/-- Dict lookup for nested-valued string-keyed dicts. -/
def lookupNested : List (String × Nested) → String → Option Nested
  | [], _ => Option.none
  | e :: es, k => if e.fst = k then some e.snd else lookupNested es k

/-- The loop of `_clean_environ` over the process environment. -/
def cleanEnvGo : List (String × String) → List (String × Nested) →
    List (String × Nested)
  | [], res => res
  | (k, v) :: rest, res =>
    cleanEnvGo rest
      (if keyMatches k then
        insertNested res k (.leaf (if v.length > 0 then .str v else Value.none))
      else res)

/-- `_clean_environ()`: keep only environment variables whose name matches
KEY_RE, and map an empty-string value to `None`. -/
def cleanEnviron (environ : List (String × String)) : List (String × Nested) :=
  cleanEnvGo environ []

/-- Membership of a string in a list of strings. -/
def elemS : List String → String → Bool
  | [], _ => false
  | t :: ts, s => if t = s then true else elemS ts s

/-- The argument shapes accepted by `append_load_path`: a colon-separated
string, a list of package names, or a falsy value. -/
inductive LPArg where
  | strA (s : String)
  | listA (l : List String)
  | noneA

/-- `_load_path_parser(value)`: an empty or falsy value gives the empty
path, a string is split on colons, and a list is copied. -/
def loadPathParse : LPArg → List String
  | .noneA => []
  | .strA s => if s = "" then [] else splitOnChar ':' s
  | .listA l => if l.isEmpty then [] else l

/-- The append loop of `append_load_path`: append each parsed package not
already present. -/
def appendNew : List String → List String → List String
  | lp, [] => lp
  | lp, p :: ps => appendNew (if elemS lp p then lp else lp ++ [p]) ps

/-- The module-level mutable state touched by `append_load_path`:
`_load_path` and the memoized `_raw_values` (None before coalescing). -/
structure ConfigState where
  load_path : List String
  raw_values : Option FlatMap

/-- Python truthiness of the memoized `_raw_values` (an empty dict is
falsy). -/
def rawTruthy : Option FlatMap → Bool
  | Option.none => false
  | some m => !m.isEmpty

/-- `append_load_path(load_path)`.  In the source, `prev = _load_path`
binds `prev` to the very list object that the loop then extends in
place, so the guard `if prev != _load_path:` compares the final list with
itself and is never true; the frozen-load-path assert behind it is
unreachable.  The model writes that comparison literally. -/
def append_load_path (st : ConfigState) (v : LPArg) : Except PyErr ConfigState :=
  let newPath := appendNew st.load_path (loadPathParse v)
  if newPath ≠ newPath then
    if rawTruthy st.raw_values then
      .error (.assertionError "Values coalesced before load_path is initialized")
    else .ok { st with load_path := newPath }
  else .ok { st with load_path := newPath }

/-- A parsed value space with one self-embedding entry: the key AA maps to
the string made of a letter a followed by the placeholder AA in braces, so
every substitution pass grows the current string by one letter and never
repeats an earlier string. -/
def selfEmbed : FlatMap := [(⟨["aa"]⟩, Value.str "a\x7bAA\x7d")]

/-- The k-th iterate of interpolating against `selfEmbed`: k letters a
followed by the placeholder AA in braces. -/
def grow (k : Nat) : String :=
  String.mk (List.replicate k 'a' ++ ['{', 'A', 'A', '}'])

/-- A list of characters with no brace characters at all. -/
def braceFreeChars : List Char → Bool
  | [] => true
  | c :: cs => if c = '{' then false else if c = '}' then false else braceFreeChars cs

/-- A string with no brace characters. -/
def braceFree (s : String) : Bool := braceFreeChars s.data

theorem braceFreeChars_cons {c : Char} {cs : List Char}
    (h : braceFreeChars (c :: cs) = true) :
    c ≠ '{' ∧ c ≠ '}' ∧ braceFreeChars cs = true := by
  by_cases h1 : c = '{' <;> by_cases h2 : c = '}' <;>
    simp_all [braceFreeChars]

theorem lookupFlat_insertFlat (m : FlatMap) (k : Key) (v : Value) (k2 : Key) :
    lookupFlat (insertFlat m k v) k2 =
      if k2.flat = k.flat then some v else lookupFlat m k2 := by
  induction m with
  | nil =>
    by_cases h : k2.flat = k.flat
    · simp [insertFlat, lookupFlat, h]
    · have h4 : ¬k.flat = k2.flat := fun hc => h hc.symm
      simp [insertFlat, lookupFlat, h, h4]
  | cons e es ih =>
    by_cases h1 : e.fst.flat = k.flat
    · by_cases h2 : k2.flat = k.flat
      · simp [insertFlat, lookupFlat, h1, h2, h1.trans h2.symm]
      · have h4 : ¬k.flat = k2.flat := fun hc => h2 hc.symm
        simp [insertFlat, lookupFlat, h1, h2, h4]
    · by_cases h3 : e.fst.flat = k2.flat
      · have h2 : ¬k2.flat = k.flat := fun hc => h1 (h3.trans hc)
        simp [insertFlat, lookupFlat, h1, h2, h3]
      · simp [insertFlat, lookupFlat, h1, h3, ih]

theorem interpLoop_none (pvs : FlatMap) (n : Nat) (seen : List String) :
    interpLoop pvs n seen Value.none = .done Value.none := by
  cases n <;> rfl

theorem interpLoop_verbatim (pvs : FlatMap) (n : Nat) (seen : List String) (s : String) :
    interpLoop pvs n seen (.verbatim s) = .done (.verbatim s) := by
  cases n <;> rfl

theorem mem_insertSorted {α : Type} (e a : Key × α) (l : List (Key × α)) :
    a ∈ insertSorted e l ↔ a = e ∨ a ∈ l := by
  induction l with
  | nil => simp [insertSorted]
  | cons x xs ih =>
    by_cases h : strLt x.fst.flat e.fst.flat = true
    · simp only [insertSorted, h, if_true, List.mem_cons, ih]
      tauto
    · simp [insertSorted, h]

theorem pairwise_insertSorted {α : Type} {R : (Key × α) → (Key × α) → Prop}
    (hs : ∀ a b, R a b → R b a) (e : Key × α) (l : List (Key × α))
    (h : List.Pairwise R (e :: l)) : List.Pairwise R (insertSorted e l) := by
  induction l with
  | nil => exact h
  | cons x xs ih =>
    rcases List.pairwise_cons.mp h with ⟨he, hxxs⟩
    rcases List.pairwise_cons.mp hxxs with ⟨hx, hxs⟩
    by_cases hc : strLt x.fst.flat e.fst.flat = true
    · simp only [insertSorted, hc, if_true]
      refine List.pairwise_cons.mpr ⟨?_, ?_⟩
      · intro b hb
        rcases (mem_insertSorted e b xs).mp hb with hbe | hbxs
        · exact hbe ▸ hs _ _ (he x (List.mem_cons_self x xs))
        · exact hx b hbxs
      · exact ih (List.pairwise_cons.mpr
          ⟨fun b hb => he b (List.mem_cons_of_mem x hb), hxs⟩)
    · simp only [insertSorted, hc, if_false]
      exact h

theorem mem_sortByFlat {α : Type} (a : Key × α) (l : List (Key × α)) :
    a ∈ sortByFlat l ↔ a ∈ l := by
  induction l with
  | nil => simp [sortByFlat]
  | cons x xs ih =>
    show a ∈ insertSorted x (sortByFlat xs) ↔ _
    rw [mem_insertSorted]
    simp [ih]

theorem pairwise_sortByFlat {α : Type} {R : (Key × α) → (Key × α) → Prop}
    (hs : ∀ a b, R a b → R b a) (l : List (Key × α))
    (h : List.Pairwise R l) : List.Pairwise R (sortByFlat l) := by
  induction l with
  | nil => exact h
  | cons x xs ih =>
    rcases List.pairwise_cons.mp h with ⟨hx, hxs⟩
    show List.Pairwise R (insertSorted x (sortByFlat xs))
    refine pairwise_insertSorted hs x (sortByFlat xs) (List.pairwise_cons.mpr ⟨?_, ih hxs⟩)
    intro b hb
    exact hx b ((mem_sortByFlat b xs).mp hb)

theorem mergeEntries_preserve (entries : List (Key × Value)) :
    ∀ (base : FlatMap) (K : Key),
      (∀ e ∈ entries, e.fst.flat ≠ K.flat) →
      ∀ r, mergeEntries base entries = .ok r → lookupFlat r K = lookupFlat base K := by
  induction entries with
  | nil =>
    intro base K _ r hr
    simp only [mergeEntries, Except.ok.injEq] at hr
    rw [hr]
  | cons en rest ih =>
    intro base K hne r hr
    obtain ⟨k, n⟩ := en
    have hk : ¬K.flat = k.flat :=
      fun hc => hne (k, n) (List.mem_cons_self _ _) hc.symm
    have hrest : ∀ e ∈ rest, e.fst.flat ≠ K.flat :=
      fun e he => hne e (List.mem_cons_of_mem _ he)
    cases hlb : lookupFlat base k with
    | none =>
      simp only [mergeEntries, hlb] at hr
      rw [ih (insertFlat base k n) K hrest r hr, lookupFlat_insertFlat]
      simp [hk]
    | some b =>
      cases hmo : mergeOne k b n with
      | ok m =>
        simp only [mergeEntries, hlb, hmo] at hr
        rw [ih (insertFlat base k m) K hrest r hr, lookupFlat_insertFlat]
        simp [hk]
      | error e0 =>
        simp only [mergeEntries, hlb, hmo] at hr
        exact absurd hr (by simp)

theorem mergeEntries_key (entries : List (Key × Value)) :
    ∀ (base : FlatMap) (K : Key) (n b : Value),
      List.Pairwise (fun e1 e2 => e1.fst.flat ≠ e2.fst.flat) entries →
      (K, n) ∈ entries → lookupFlat base K = some b →
      (∀ m, mergeOne K b n = .ok m →
        ∀ r, mergeEntries base entries = .ok r → lookupFlat r K = some m)
      ∧ (∀ e0, mergeOne K b n = .error e0 →
          ∃ e, mergeEntries base entries = .error e) := by
  induction entries with
  | nil => intro base K n b _ hm; exact absurd hm (by simp)
  | cons en rest ih =>
    intro base K n b hp hm hb
    obtain ⟨k0, n0⟩ := en
    rcases List.pairwise_cons.mp hp with ⟨hhead, hprest⟩
    rcases List.mem_cons.mp hm with hEq | hInRest
    · have hk0 : K = k0 := congrArg Prod.fst hEq
      have hn0 : n = n0 := congrArg Prod.snd hEq
      subst hk0; subst hn0
      have hrest : ∀ e ∈ rest, e.fst.flat ≠ K.flat :=
        fun e he => fun hc => (hhead e he) hc.symm
      constructor
      · intro m hmo r hr
        simp only [mergeEntries, hb, hmo] at hr
        rw [mergeEntries_preserve rest (insertFlat base K m) K hrest r hr,
          lookupFlat_insertFlat]
        simp
      · intro e0 hmo
        simp only [mergeEntries, hb, hmo]
        exact ⟨e0, rfl⟩
    · have hne : ¬K.flat = k0.flat :=
        fun hc => (hhead (K, n) hInRest) hc.symm
      cases hlb : lookupFlat base k0 with
      | none =>
        have hb2 : lookupFlat (insertFlat base k0 n0) K = some b := by
          rw [lookupFlat_insertFlat]; simp [hne, hb]
        have := ih (insertFlat base k0 n0) K n b hprest hInRest hb2
        constructor
        · intro m hmo r hr
          simp only [mergeEntries, hlb] at hr
          exact this.1 m hmo r hr
        · intro e0 hmo
          rcases this.2 e0 hmo with ⟨e, he⟩
          refine ⟨e, ?_⟩
          simp only [mergeEntries, hlb]
          exact he
      | some b0 =>
        cases hmo0 : mergeOne k0 b0 n0 with
        | ok m0 =>
          have hb2 : lookupFlat (insertFlat base k0 m0) K = some b := by
            rw [lookupFlat_insertFlat]; simp [hne, hb]
          have := ih (insertFlat base k0 m0) K n b hprest hInRest hb2
          constructor
          · intro m hmo r hr
            simp only [mergeEntries, hlb, hmo0] at hr
            exact this.1 m hmo r hr
          · intro e0 hmo
            rcases this.2 e0 hmo with ⟨e, he⟩
            refine ⟨e, ?_⟩
            simp only [mergeEntries, hlb, hmo0]
            exact he
        | error e1 =>
          constructor
          · intro m hmo r hr
            simp only [mergeEntries, hlb, hmo0] at hr
            exact absurd hr (by simp)
          · intro e0 hmo
            refine ⟨e1, ?_⟩
            simp only [mergeEntries, hlb, hmo0]

theorem mergeOne_lists (k : Key) (bl nl : List Value) :
    mergeOne k (.list bl) (.list nl) = .ok (.list (nl ++ bl)) := rfl

theorem mergeOne_none (k : Key) (b n : Value) (h : (b.isNone || n.isNone) = true) :
    mergeOne k b n = .ok n := by
  cases b <;> cases n <;> simp_all [mergeOne, Value.isNone, Value.isList]

theorem mergeOne_scalar (k : Key) (b n : Value) (h : (b.isList || n.isList) = false) :
    mergeOne k b n = .ok n := by
  cases b <;> cases n <;> simp_all [mergeOne, Value.isNone, Value.isList]

theorem mergeOne_collision (k : Key) (b n : Value)
    (h1 : (b.isList || n.isList) = true) (h2 : b.isNone = false)
    (h3 : n.isNone = false) (h4 : (b.isList && n.isList) = false) :
    ∃ e0, mergeOne k b n = .error e0 := by
  cases b <;> cases n <;> simp_all [mergeOne, Value.isNone, Value.isList]

/-- C1: merging one flat source into the accumulated raw value space obeys,
for every key present in both maps: when both values are lists the result is
the incoming list concatenated in front of the existing list; when at least
one side is a list and either side is None, the incoming value overwrites the
existing one (so the value is cleared exactly when the incoming value is
None, while an incoming list replaces an existing None); when exactly one
side is a list and the other is neither a list nor None, the merge fails; in
every other case the incoming value overwrites the existing one. -/
theorem valuesFlatten_merge_rules
    (fuel : Nat) (base : FlatMap) (new : List (String × Nested)) (nv : FlatMap)
    (K : Key) (n b : Value)
    (hflat : flattenKeys fuel [] new [] = .ok nv)
    (hpair : List.Pairwise (fun e1 e2 => e1.fst.flat ≠ e2.fst.flat) nv)
    (hmem : (K, n) ∈ nv)
    (hb : lookupFlat base K = some b) :
    ((∀ bl nl, b = .list bl → n = .list nl →
        ∀ r, valuesFlatten fuel base new = .ok r →
          lookupFlat r K = some (.list (nl ++ bl)))
    ∧ ((b.isNone || n.isNone) = true →
        ∀ r, valuesFlatten fuel base new = .ok r → lookupFlat r K = some n)
    ∧ ((b.isList || n.isList) = true → b.isNone = false → n.isNone = false →
        (b.isList && n.isList) = false →
        ∃ e, valuesFlatten fuel base new = .error e)
    ∧ ((b.isList || n.isList) = false →
        ∀ r, valuesFlatten fuel base new = .ok r → lookupFlat r K = some n)) := by
  have hmemS : (K, n) ∈ sortByFlat nv := (mem_sortByFlat _ _).mpr hmem
  have hpairS : List.Pairwise (fun e1 e2 => e1.fst.flat ≠ e2.fst.flat) (sortByFlat nv) :=
    pairwise_sortByFlat (fun a b h => h.symm) nv hpair
  have hkey := mergeEntries_key (sortByFlat nv) base K n b hpairS hmemS hb
  refine ⟨?_, ?_, ?_, ?_⟩
  · intro bl nl hbl hnl r hr
    subst hbl; subst hnl
    simp only [valuesFlatten, hflat] at hr
    exact hkey.1 (.list (nl ++ bl)) (mergeOne_lists K bl nl) r hr
  · intro hnone r hr
    simp only [valuesFlatten, hflat] at hr
    exact hkey.1 n (mergeOne_none K b n hnone) r hr
  · intro h1 h2 h3 h4
    rcases mergeOne_collision K b n h1 h2 h3 h4 with ⟨e0, he0⟩
    rcases hkey.2 e0 he0 with ⟨e, he⟩
    refine ⟨e, ?_⟩
    simp only [valuesFlatten, hflat]
    exact he
  · intro hsc r hr
    simp only [valuesFlatten, hflat] at hr
    exact hkey.1 n (mergeOne_scalar K b n hsc) r hr

/-- C1 counterexample: the claim says that when either side is None the
merged result is None (the value is cleared); but for an existing None and
an incoming list the source stores the incoming list, not None. -/
theorem valuesFlatten_none_base_list_incoming :
    valuesFlatten 10 [(⟨["aa"]⟩, Value.none)] [("aa", .leaf (.list [.str "x"]))]
      = .ok [(⟨["aa"]⟩, Value.list [.str "x"])]
    ∧ (Value.list [.str "x"]).isNone = false := ⟨rfl, rfl⟩

/-- Witness for `valuesFlatten_merge_rules` at a concrete both-lists input:
default base entry is a one-element list, the incoming source carries another
one-element list, and the merged value is the incoming elements followed by
the base elements. -/
theorem valuesFlatten_merge_rules_witness :
    flattenKeys 10 [] [("aa", Nested.leaf (.list [.str "n1"]))] [] =
      .ok [(⟨["aa"]⟩, Value.list [.str "n1"])]
    ∧ lookupFlat [(⟨["aa"]⟩, Value.list [.str "b1"])] ⟨["aa"]⟩ = some (.list [.str "b1"])
    ∧ ∀ r, valuesFlatten 10 [(⟨["aa"]⟩, Value.list [.str "b1"])]
        [("aa", Nested.leaf (.list [.str "n1"]))] = .ok r →
        lookupFlat r ⟨["aa"]⟩ = some (.list ([.str "n1"] ++ [.str "b1"])) :=
  ⟨rfl, rfl,
    (valuesFlatten_merge_rules 10 [(⟨["aa"]⟩, Value.list [.str "b1"])]
      [("aa", Nested.leaf (.list [.str "n1"]))]
      [(⟨["aa"]⟩, Value.list [.str "n1"])] ⟨["aa"]⟩
      (.list [.str "n1"]) (.list [.str "b1"]) rfl
      (by simp) (by simp) rfl).1
      [.str "b1"] [.str "n1"] rfl rfl⟩

theorem braceFreeChars_replicate (k : Nat) :
    braceFreeChars (List.replicate k 'a') = true := by
  induction k with
  | zero => rfl
  | succ k ih => simpa [List.replicate_succ, braceFreeChars] using ih

theorem fmtGo_lit_char (pvs : FlatMap) (c : Char) (rest : List Char)
    (h1 : c ≠ '{') (h2 : c ≠ '}') :
    fmtGo pvs .lit (c :: rest) =
      match fmtGo pvs .lit rest with
      | .ok t => .ok (c :: t)
      | .error e => .error e := by
  simp [fmtGo, h1, h2]

theorem fmtGo_lit_append (pvs : FlatMap) (pre tail : List Char)
    (h : braceFreeChars pre = true) :
    fmtGo pvs .lit (pre ++ tail) =
      match fmtGo pvs .lit tail with
      | .ok t => .ok (pre ++ t)
      | .error e => .error e := by
  induction pre with
  | nil =>
    cases h2 : fmtGo pvs .lit tail <;> simp [h2]
  | cons c cs ih =>
    rcases braceFreeChars_cons h with ⟨h1, h2, h3⟩
    rw [List.cons_append, fmtGo_lit_char pvs c (cs ++ tail) h1 h2, ih h3]
    cases fmtGo pvs .lit tail <;> simp

theorem fmt_grow (k : Nat) : fmt selfEmbed (grow k) = .ok (grow (k + 1)) := by
  have hdata : (grow k).data = List.replicate k 'a' ++ ['{', 'A', 'A', '}'] := rfl
  have hbase : fmtGo selfEmbed .lit ['{', 'A', 'A', '}'] =
      .ok ('a' :: '{' :: 'A' :: 'A' :: '}' :: []) := rfl
  have happ := fmtGo_lit_append selfEmbed (List.replicate k 'a') ['{', 'A', 'A', '}']
    (braceFreeChars_replicate k)
  rw [hbase] at happ
  have hsh : List.replicate k 'a' ++ ('a' :: '{' :: 'A' :: 'A' :: '}' :: []) =
      List.replicate (k + 1) 'a' ++ ['{', 'A', 'A', '}'] := by
    rw [List.replicate_succ']
    simp
  simp only [fmt, hdata, happ, hsh]
  rfl

theorem grow_length (k : Nat) : (grow k).length = k + 4 := by
  simp [grow, String.length]

theorem seenHas_of_short (seen : List String) (s : String)
    (h : ∀ t ∈ seen, t.length < s.length) : seenHas seen s = false := by
  induction seen with
  | nil => rfl
  | cons t ts ih =>
    have hts : t ≠ s := by
      intro hc
      exact absurd (hc ▸ h t (List.mem_cons_self t ts)) (by simp)
    simp only [seenHas, hts, if_false]
    exact ih fun u hu => h u (List.mem_cons_of_mem t hu)

theorem interpLoop_grow_more (n : Nat) :
    ∀ (k : Nat) (seen : List String),
      (∀ t ∈ seen, t.length < (grow k).length) →
      interpLoop selfEmbed n seen (.str (grow k)) = .more := by
  induction n with
  | zero =>
    intro k seen h
    simp [interpLoop, contin, seenHas_of_short seen (grow k) h]
  | succ n ih =>
    intro k seen h
    simp only [interpLoop, seenHas_of_short seen (grow k) h, fmt_grow k]
    exact ih (k + 1) (grow k :: seen) (by
      intro t ht
      rcases List.mem_cons.mp ht with hEq | hIn
      · rw [hEq, grow_length, grow_length]
        omega
      · have := h t hIn
        rw [grow_length] at this ⊢
        omega)

/-- C2 counterexample: the claim asserts the interpolation loop terminates
for every raw string value and every fixed parsed value space; but with the
parsed value space `selfEmbed` (whose value re-embeds its own placeholder)
the string handed to format grows by one character per iteration, never
repeats, and the loop runs forever: no amount of fuel finishes it. -/
theorem interpLoop_self_embedding_diverges :
    ¬ ∃ fuel, interpLoop selfEmbed fuel [] (Value.str "\x7bAA\x7d") ≠ LoopRes.more := by
  rintro ⟨fuel, hne⟩
  apply hne
  have h0 : ("\x7bAA\x7d" : String) = grow 0 := rfl
  rw [h0]
  exact interpLoop_grow_more fuel 0 [] (by simp)

/-- C2 amended: the interpolation loop of scalar resolution tracks every
intermediate string and stops as soon as a string repeats, so resolution
terminates whenever the substitution iterates stay within a finite set of
strings; in particular a value that references itself through a chain of
three parameters (each value exactly the next placeholder) terminates and
produces the repeated string.  Termination is not universal: a value that
re-embeds its own placeholder inside a longer string makes the loop grow the
string forever (see the counterexample). -/
theorem interpLoop_placeholder_cycle_terminates :
    interpLoop
      [(⟨["xx"]⟩, Value.str "\x7bYY\x7d"), (⟨["yy"]⟩, Value.str "\x7bZZ\x7d"),
       (⟨["zz"]⟩, Value.str "\x7bXX\x7d")] 10 [] (Value.str "\x7bXX\x7d")
      = .done (.str "\x7bXX\x7d")
    ∧ resolveValue 10 [(⟨["qq"]⟩, Value.str "\x7bXX\x7d")]
        [(⟨["xx"]⟩, Value.str "\x7bYY\x7d"), (⟨["yy"]⟩, Value.str "\x7bZZ\x7d"),
         (⟨["zz"]⟩, Value.str "\x7bXX\x7d")] ⟨["qq"]⟩ (mkDecl (Value.str "") strParser "x")
      = .ok (.str "\x7bXX\x7d") := ⟨rfl, rfl⟩

/-- C3 counterexample: as literally stated the scenario fails.  The module
declares x (default "default") and y (default "b"), and the base config sets
x to the letter a followed by the placeholder pkg_mod_y in braces.
Registration visits declarations in sorted flat-key order, so x (flat
PKG_MOD_X) is resolved before y (flat PKG_MOD_Y); the parsed value space
does not yet hold y, and the format keyword lookup is against the uppercase
flat keys anyway, so resolving x raises KeyError for pkg_mod_y instead of
producing "ab". -/
theorem iterDecls_forward_reference_fails :
    iterDecls 5 [(⟨["pkg", "mod", "x"]⟩, Value.str "a\x7bpkg_mod_y\x7d")] []
      [(⟨["pkg", "mod", "x"]⟩, mkDecl (Value.str "default") strParser "p"),
       (⟨["pkg", "mod", "y"]⟩, mkDecl (Value.str "b") strParser "p")]
      = .failed (.keyError "pkg_mod_y") := rfl

/-- C3 amended: a same-module reference resolves only when the placeholder is
written in uppercase flat form and names a parameter whose key sorts before
the referencing one.  Declaring w (default "b") and x (default "default"),
with the base config setting x to the letter a followed by the placeholder
PKG_MOD_W in braces, registration resolves w to "b" first and then x to
"ab"; both land in the parsed value space. -/
theorem iterDecls_backward_reference_resolves :
    iterDecls 5 [(⟨["pkg", "mod", "x"]⟩, Value.str "a\x7bPKG_MOD_W\x7d")] []
      [(⟨["pkg", "mod", "x"]⟩, mkDecl (Value.str "default") strParser "p"),
       (⟨["pkg", "mod", "w"]⟩, mkDecl (Value.str "b") strParser "p")]
      = .done [(⟨["pkg", "mod", "w"]⟩, .str "b"), (⟨["pkg", "mod", "x"]⟩, .str "ab")]
              [(⟨["pkg", "mod", "w"]⟩, .str "b"), (⟨["pkg", "mod", "x"]⟩, .str "ab")] := rfl

/-- C4: the claim (and the spec) say that extending the load path after the
raw value space has been computed fails with a fatal load-path-frozen error.
In the source the guard compares the mutated list object with its own alias,
so the assert is unreachable: with the raw values already memoized (non-empty)
the call appends the new package and returns normally.  This theorem
evaluates the model of `append_load_path` at exactly that failing input. -/
theorem append_load_path_after_coalesce_no_error :
    append_load_path ⟨["pykern"], some [(⟨["aa"]⟩, Value.str "v")]⟩ (.strA "mypkg")
      = .ok ⟨["pykern", "mypkg"], some [(⟨["aa"]⟩, Value.str "v")]⟩ := rfl

/-- C5 counterexample: the claim says that when two packages in the load path
supply values flattening to the identical flat key, coalescing raises a
duplicate-key error.  In the source each package source is flattened into its
own fresh dict, so the shared key merges instead: coalescing the two sources
succeeds and the later package overwrites the earlier value. -/
theorem coalesce_cross_package_duplicate_overwrites :
    coalesceSources 10 []
      [[("pkg", .node [("sub", .node [("name", .leaf (.str "v1"))])])],
       [("pkg", .node [("sub", .node [("name", .leaf (.str "v2"))])])]]
      = .ok [(⟨["pkg", "sub", "name"]⟩, .str "v2")] := rfl

/-- C5 amended: the duplicate-key assertion fires only when two distinct
nested paths inside a single source mapping flatten to the identical flat
key: here the nested path pkg / sub / name and the dotted key "pkg.sub.name"
collide within one source and flattening fails naming the dotted key. -/
theorem flattenKeys_duplicate_within_source :
    flattenKeys 10 []
      [("pkg", .node [("sub", .node [("name", .leaf (.str "v1"))])]),
       ("pkg.sub.name", .leaf (.str "v2"))] []
      = .error (.assertionError "pkg.sub.name: duplicate key") := rfl

/-- C6: the claim says a Required declaration with no source value fails with
a missing-required-value error naming the dotted key regardless of parser.
That is what the scalar path does (second conjunct), but the list path
contradicts it: the assert message in `_resolve_list` references the
undefined name `k`, so a Required list declaration whose key is absent
raises NameError with no key name at all instead of the intended error.
The first conjunct evaluates the model at that failing input. -/
theorem resolveList_required_missing_nameError :
    resolveList [] ⟨["pkg", "mod", "req"]⟩ (Required listParser "doc")
      = .error (.nameError "k")
    ∧ resolveValue 1 [] [] ⟨["pkg", "mod", "req"]⟩ (Required strParser "doc")
      = .err (.assertionError "pkg.mod.req: config value missing and is required") :=
  ⟨rfl, rfl⟩

/-- C7: for a declaration whose parser is the list type with a list default:
a raw list value resolves to the raw elements concatenated in front of a copy
of the default; a raw None resolves to None rather than the default; a raw
value that is neither a list nor None fails with the type assertion naming
the dotted key; an absent key resolves to the default. -/
theorem resolveList_semantics
    (raw : FlatMap) (key : Key) (d : Decl) (dl : List Value)
    (hreq : d.required = false) (hdef : d.default = .list dl) :
    ((∀ v, lookupFlat raw key = some (.list v) →
        resolveList raw key d = .ok (.list (v ++ dl)))
    ∧ (lookupFlat raw key = some Value.none → resolveList raw key d = .ok Value.none)
    ∧ (∀ v, lookupFlat raw key = some v → v.isList = false → v.isNone = false →
        resolveList raw key d =
          .error (.assertionError
            (key.msg ++ ": value (" ++ pyStr v ++ ") must be a list or None")))
    ∧ (lookupFlat raw key = Option.none → resolveList raw key d = .ok (.list dl))) := by
  have hres : (if truthyV d.default then d.default else Value.list []) = .list dl := by
    rw [hdef]
    cases dl <;> simp [truthyV]
  refine ⟨?_, ?_, ?_, ?_⟩
  · intro v hv
    simp only [resolveList, hres, hv]
  · intro hv
    simp only [resolveList, hres, hv]
  · intro v hv h1 h2
    cases v with
    | list l => simp [Value.isList] at h1
    | none => simp [Value.isNone] at h2
    | str s => simp only [resolveList, hres, hv]
    | verbatim s => simp only [resolveList, hres, hv]
    | other r => simp only [resolveList, hres, hv]
  · intro hv
    simp only [resolveList, hres, hv, hreq]
    simp

/-- Witness for `resolveList_semantics` at scenario 2 of the spec: default
is the one-element list d1, the base config supplies the one-element list
c1, and the resolved value is c1 followed by d1 (incoming prepended). -/
theorem resolveList_semantics_witness :
    lookupFlat [(⟨["pkg", "mod", "items"]⟩, Value.list [.str "c1"])]
        ⟨["pkg", "mod", "items"]⟩ = some (.list [.str "c1"])
    ∧ resolveList [(⟨["pkg", "mod", "items"]⟩, Value.list [.str "c1"])]
        ⟨["pkg", "mod", "items"]⟩ (mkDecl (.list [.str "d1"]) listParser "doc")
      = .ok (.list ([.str "c1"] ++ [.str "d1"])) :=
  ⟨rfl,
    (resolveList_semantics [(⟨["pkg", "mod", "items"]⟩, Value.list [.str "c1"])]
      ⟨["pkg", "mod", "items"]⟩ (mkDecl (.list [.str "d1"]) listParser "doc")
      [.str "d1"] rfl rfl).1 [.str "c1"] rfl⟩

theorem lookupNested_insertNested (m : List (String × Nested)) (k : String)
    (v : Nested) (k2 : String) :
    lookupNested (insertNested m k v) k2 =
      if k2 = k then some v else lookupNested m k2 := by
  induction m with
  | nil =>
    by_cases h : k2 = k
    · simp [insertNested, lookupNested, h]
    · have h4 : ¬k = k2 := fun hc => h hc.symm
      simp [insertNested, lookupNested, h, h4]
  | cons e es ih =>
    by_cases h1 : e.fst = k
    · by_cases h2 : k2 = k
      · simp [insertNested, lookupNested, h1, h2, h1.trans h2.symm]
      · have h4 : ¬k = k2 := fun hc => h2 hc.symm
        simp [insertNested, lookupNested, h1, h2, h4]
    · by_cases h3 : e.fst = k2
      · have h2 : ¬k2 = k := fun hc => h1 (h3.trans hc)
        simp [insertNested, lookupNested, h1, h2, h3]
      · simp [insertNested, lookupNested, h1, h3, ih]

theorem cleanEnvGo_preserve (environ : List (String × String)) :
    ∀ (res : List (String × Nested)) (K : String),
      (∀ e ∈ environ, e.fst ≠ K) →
      lookupNested (cleanEnvGo environ res) K = lookupNested res K := by
  induction environ with
  | nil => intro res K _; rfl
  | cons e rest ih =>
    intro res K hne
    obtain ⟨k, v⟩ := e
    have hk : k ≠ K := hne (k, v) (List.mem_cons_self _ _)
    have hrest : ∀ e ∈ rest, e.fst ≠ K :=
      fun e he => hne e (List.mem_cons_of_mem _ he)
    show lookupNested (cleanEnvGo rest _) K = _
    rw [ih _ K hrest]
    by_cases hm : keyMatches k
    · have hKk : ¬K = k := fun hc => hk hc.symm
      simp only [hm, if_true, lookupNested_insertNested]
      rw [if_neg hKk]
    · simp [hm]

theorem cleanEnvGo_found (environ : List (String × String)) :
    ∀ (res : List (String × Nested)) (K : String),
      List.Pairwise (fun a b => a.fst ≠ b.fst) environ →
      (K, "") ∈ environ → keyMatches K = true →
      lookupNested (cleanEnvGo environ res) K = some (.leaf Value.none) := by
  induction environ with
  | nil => intro res K _ hm; exact absurd hm (by simp)
  | cons e rest ih =>
    intro res K hp hm hk
    obtain ⟨k0, v0⟩ := e
    rcases List.pairwise_cons.mp hp with ⟨hhead, hprest⟩
    rcases List.mem_cons.mp hm with hEq | hInRest
    · have hk0 : K = k0 := congrArg Prod.fst hEq
      have hv0 : "" = v0 := congrArg Prod.snd hEq
      subst hk0; subst hv0
      show lookupNested (cleanEnvGo rest _) K = _
      rw [cleanEnvGo_preserve rest _ K (fun e he => (hhead e he).symm)]
      simp [hk, lookupNested_insertNested]
    · show lookupNested (cleanEnvGo rest _) K = _
      exact ih _ K hprest hInRest hk

/-- C8: an environment variable whose name matches the key pattern and whose
value is the empty string is captured as None in the cleaned environment; and
for a raw value of None under a parser without the parse-none marker, scalar
resolution returns None without ever invoking the parser (the conclusion
holds for every parser function whatsoever). -/
theorem cleanEnviron_empty_string_resolves_none
    (environ : List (String × String)) (K : String)
    (hp : List.Pairwise (fun a b => a.fst ≠ b.fst) environ)
    (hm : (K, "") ∈ environ) (hk : keyMatches K = true) :
    lookupNested (cleanEnviron environ) K = some (.leaf Value.none)
    ∧ (∀ (fuel : Nat) (raw pvs : FlatMap) (key : Key) (d : Decl),
        lookupFlat raw key = some Value.none → d.parser.parseNone = false →
        resolveValue fuel raw pvs key d = .ok Value.none) := by
  constructor
  · exact cleanEnvGo_found environ [] K hp hm hk
  · intro fuel raw pvs key d hlk hpn
    simp only [resolveValue, hlk, resolveValueLoop, interpLoop_none]
    simp [Value.isNone, hpn]

/-- Witness for `cleanEnviron_empty_string_resolves_none` at a concrete
environment with one empty-valued variable and a concrete raw space. -/
theorem cleanEnviron_empty_string_resolves_none_witness :
    List.Pairwise (fun a b => a.fst ≠ b.fst) [("PKG_MOD_P", "")]
    ∧ ("PKG_MOD_P", "") ∈ [("PKG_MOD_P", "")]
    ∧ keyMatches "PKG_MOD_P" = true
    ∧ lookupNested (cleanEnviron [("PKG_MOD_P", "")]) "PKG_MOD_P"
        = some (.leaf Value.none)
    ∧ resolveValue 3 [(⟨["pkg", "mod", "p"]⟩, Value.none)] [] ⟨["pkg", "mod", "p"]⟩
        (mkDecl (Value.str "z") strParser "doc") = .ok Value.none :=
  ⟨by simp, by simp, rfl,
   (cleanEnviron_empty_string_resolves_none [("PKG_MOD_P", "")] "PKG_MOD_P"
     (by simp) (by simp) rfl).1,
   (cleanEnviron_empty_string_resolves_none [("PKG_MOD_P", "")] "PKG_MOD_P"
     (by simp) (by simp) rfl).2 3 [(⟨["pkg", "mod", "p"]⟩, Value.none)] []
     ⟨["pkg", "mod", "p"]⟩ (mkDecl (Value.str "z") strParser "doc") rfl rfl⟩

/-- C9: a Verbatim raw value is exempt from interpolation: the loop returns
it unchanged for any parsed value space and any fuel, the parser receives
exactly the original Verbatim string, and the wrapper carries its plain
string content (its `str` form is the string itself). -/
theorem resolveValue_verbatim_unmodified
    (fuel : Nat) (raw pvs : FlatMap) (key : Key) (d : Decl) (s : String)
    (h : lookupFlat raw key = some (.verbatim s)) :
    interpLoop pvs fuel [] (.verbatim s) = .done (.verbatim s)
    ∧ resolveValue fuel raw pvs key d = exceptToR (d.parser.run (.verbatim s))
    ∧ pyStr (.verbatim s) = s := by
  refine ⟨interpLoop_verbatim pvs fuel [] s, ?_, rfl⟩
  simp only [resolveValue, h, resolveValueLoop, interpLoop_verbatim]
  simp [Value.isNone]

/-- Witness for `resolveValue_verbatim_unmodified`: a Verbatim value holding
placeholder-like syntax for a key that is present in the parsed value space
is still handed to the parser untouched. -/
theorem resolveValue_verbatim_unmodified_witness :
    lookupFlat [(⟨["pkg", "mod", "t"]⟩, Value.verbatim "x\x7bAA\x7dy")]
        ⟨["pkg", "mod", "t"]⟩ = some (.verbatim "x\x7bAA\x7dy")
    ∧ resolveValue 3 [(⟨["pkg", "mod", "t"]⟩, Value.verbatim "x\x7bAA\x7dy")]
        [(⟨["aa"]⟩, Value.str "boom")] ⟨["pkg", "mod", "t"]⟩
        (mkDecl (Value.str "") strParser "d")
      = exceptToR (strParser.run (.verbatim "x\x7bAA\x7dy")) :=
  ⟨rfl,
   (resolveValue_verbatim_unmodified 3
     [(⟨["pkg", "mod", "t"]⟩, Value.verbatim "x\x7bAA\x7dy")]
     [(⟨["aa"]⟩, Value.str "boom")] ⟨["pkg", "mod", "t"]⟩
     (mkDecl (Value.str "") strParser "d") "x\x7bAA\x7dy" rfl).2.1⟩

theorem str_eq_empty_of_data_nil (s : String) (h : s.data = []) : s = "" :=
  congrArg String.mk h

theorem fmtGo_lit_open (pvs : FlatMap) (c : Char) (cs : List Char) (h : c ≠ '{') :
    fmtGo pvs .lit ('{' :: c :: cs) = fmtGo pvs (.name []) (c :: cs) := by
  simp [fmtGo, h]

theorem fmtGo_name_scan (pvs : FlatMap) (t : String) (ntail : List Char) :
    ∀ (acc post : List Char),
      braceFreeChars ntail = true →
      lookupName pvs (String.mk (acc.reverse ++ ntail)) = some (.verbatim t) →
      fmtGo pvs (.name acc) (ntail ++ '}' :: post)
        = .error (.assertionError (t ++ ": you cannot refer to this formatted value")) := by
  induction ntail with
  | nil =>
    intro acc post _ hl
    rw [List.append_nil] at hl
    rw [List.nil_append]
    simp only [fmtGo, hl]
    rfl
  | cons c cs ih =>
    intro acc post hbf hl
    rcases braceFreeChars_cons hbf with ⟨h1, h2, h3⟩
    rw [List.cons_append]
    have hstep : fmtGo pvs (.name acc) (c :: (cs ++ '}' :: post))
        = fmtGo pvs (.name (c :: acc)) (cs ++ '}' :: post) := by
      simp [fmtGo, h2]
    rw [hstep]
    apply ih (c :: acc) post h3
    have hrw : (c :: acc).reverse ++ cs = acc.reverse ++ (c :: cs) := by
      rw [List.reverse_cons, List.append_assoc]
      rfl
    rw [hrw]
    exact hl

/-- C10: when interpolation of a plain scalar string substitutes a
placeholder whose parsed value is a Verbatim string, the substitution raises
the Verbatim format assertion (naming the Verbatim content) instead of
splicing the text, so a Verbatim value can never leak into another value
through interpolation: both the single format pass and the whole scalar
resolution fail with that assertion. -/
theorem fmt_verbatim_placeholder_asserts
    (pre name post t : String) (pvs : FlatMap) (fuel : Nat) (raw : FlatMap)
    (key : Key) (d : Decl)
    (hpre : braceFree pre = true) (hname : braceFree name = true)
    (hne : name ≠ "")
    (hlk : lookupName pvs name = some (.verbatim t))
    (hraw : lookupFlat raw key
      = some (.str (pre ++ "\x7b" ++ name ++ "\x7d" ++ post))) :
    fmt pvs (pre ++ "\x7b" ++ name ++ "\x7d" ++ post)
      = .error (.assertionError (t ++ ": you cannot refer to this formatted value"))
    ∧ resolveValue (fuel + 1) raw pvs key d
      = .err (.assertionError (t ++ ": you cannot refer to this formatted value")) := by
  have hdata : (pre ++ "\x7b" ++ name ++ "\x7d" ++ post).data
      = pre.data ++ ('{' :: (name.data ++ ('}' :: post.data))) := by
    simp [String.data_append]
  obtain ⟨c, cs, hcs⟩ : ∃ c cs, name.data = c :: cs := by
    cases hnd : name.data with
    | nil => exact absurd (str_eq_empty_of_data_nil name hnd) hne
    | cons c cs => exact ⟨c, cs, rfl⟩
  have hbfn : braceFreeChars (c :: cs) = true := hcs ▸ hname
  rcases braceFreeChars_cons hbfn with ⟨hc1, hc2, hc3⟩
  have hlk2 : lookupName pvs (String.mk ((List.nil (α := Char)).reverse ++ name.data))
      = some (.verbatim t) := by
    simpa using hlk
  have hinner : fmtGo pvs (.name []) (name.data ++ '}' :: post.data)
      = .error (.assertionError (t ++ ": you cannot refer to this formatted value")) :=
    fmtGo_name_scan pvs t name.data [] post.data hname hlk2
  have hopen : fmtGo pvs .lit ('{' :: (name.data ++ '}' :: post.data))
      = .error (.assertionError (t ++ ": you cannot refer to this formatted value")) := by
    rw [hcs, List.cons_append, fmtGo_lit_open pvs c (cs ++ '}' :: post.data) hc1,
      ← List.cons_append, ← hcs]
    exact hinner
  have hfmtgo : fmtGo pvs .lit ((pre ++ "\x7b" ++ name ++ "\x7d" ++ post).data)
      = .error (.assertionError (t ++ ": you cannot refer to this formatted value")) := by
    rw [hdata, fmtGo_lit_append pvs pre.data _ hpre, hopen]
  have hfmt : fmt pvs (pre ++ "\x7b" ++ name ++ "\x7d" ++ post)
      = .error (.assertionError (t ++ ": you cannot refer to this formatted value")) := by
    simp only [fmt, hfmtgo]
  have hloop : interpLoop pvs (fuel + 1) []
      (.str (pre ++ "\x7b" ++ name ++ "\x7d" ++ post))
      = .failed (.assertionError (t ++ ": you cannot refer to this formatted value")) := by
    simp [interpLoop, seenHas, hfmt]
  refine ⟨hfmt, ?_⟩
  simp only [resolveValue, hraw, resolveValueLoop, hloop]

/-- Witness for `fmt_verbatim_placeholder_asserts` at a concrete value: the
raw string is the letter a, the placeholder BB in braces, then the letter c,
and the parsed value space maps BB to the Verbatim string v. -/
theorem fmt_verbatim_placeholder_asserts_witness :
    braceFree "a" = true ∧ braceFree "BB" = true ∧ ("BB" : String) ≠ ""
    ∧ lookupName [(⟨["bb"]⟩, Value.verbatim "v")] "BB" = some (.verbatim "v")
    ∧ lookupFlat [(⟨["qq"]⟩, Value.str "a\x7bBB\x7dc")] ⟨["qq"]⟩
        = some (.str ("a" ++ "\x7b" ++ "BB" ++ "\x7d" ++ "c"))
    ∧ fmt [(⟨["bb"]⟩, Value.verbatim "v")] ("a" ++ "\x7b" ++ "BB" ++ "\x7d" ++ "c")
        = .error (.assertionError ("v" ++ ": you cannot refer to this formatted value"))
    ∧ resolveValue 1 [(⟨["qq"]⟩, Value.str "a\x7bBB\x7dc")]
        [(⟨["bb"]⟩, Value.verbatim "v")] ⟨["qq"]⟩ (mkDecl (Value.str "") strParser "d")
        = .err (.assertionError ("v" ++ ": you cannot refer to this formatted value")) :=
  ⟨rfl, rfl, by decide, rfl, rfl,
   (fmt_verbatim_placeholder_asserts "a" "BB" "c" "v" [(⟨["bb"]⟩, Value.verbatim "v")] 0
     [(⟨["qq"]⟩, Value.str "a\x7bBB\x7dc")] ⟨["qq"]⟩ (mkDecl (Value.str "") strParser "d")
     rfl rfl (by decide) rfl rfl).1,
   (fmt_verbatim_placeholder_asserts "a" "BB" "c" "v" [(⟨["bb"]⟩, Value.verbatim "v")] 0
     [(⟨["qq"]⟩, Value.str "a\x7bBB\x7dc")] ⟨["qq"]⟩ (mkDecl (Value.str "") strParser "d")
     rfl rfl (by decide) rfl rfl).2⟩
